/-
Verification of the DiffusionDet forward numerical pipeline from
src/transformers/models/diffusiondet/modeling_diffusiondet.py and
src/transformers/models/diffusiondet/head.py.

Modelling conventions:
  * floating-point tensors are modelled over the reals;
  * a bounding box is a vector of four real coordinates (Fin 4 -> R);
  * batched tensors are nested lists (batch, then proposals);
  * every source of randomness (Gaussian draws, shuffled masks) and the
    learned prediction head are explicit oracle parameters, so theorems
    quantify over them;
  * machine integers are Nat/Int; the torch linspace/int truncation in the
    sampler is modelled exactly over the rationals.
-/
import Mathlib

namespace DiffusionDet

/-- A bounding box, four real coordinates. -/
abbrev Box := Fin 4 → ℝ

/-- torch.sigmoid. -/
noncomputable def sigmoid (x : ℝ) : ℝ := 1 / (1 + Real.exp (-x))

/- ---------------------------------------------------------------------
Diffusion schedule buffers and the closed-form forward/backward formulas
(modeling_diffusiondet.py lines 92-96, 129-133, 223-230).  The
alphas_cumprod buffer is an explicit parameter ac; the derived buffers are
the square roots cached at construction.
--------------------------------------------------------------------- -/

/-- Buffer sqrt_alphas_cumprod (modeling_diffusiondet.py line 94). -/
noncomputable def sqrtAc (ac : ℤ → ℝ) (t : ℤ) : ℝ := Real.sqrt (ac t)

/-- Buffer sqrt_one_minus_alphas_cumprod (modeling_diffusiondet.py line 93). -/
noncomputable def sqrtOneMinusAc (ac : ℤ → ℝ) (t : ℤ) : ℝ := Real.sqrt (1 - ac t)

/-- Buffer sqrt_recip_alphas_cumprod (modeling_diffusiondet.py line 95). -/
noncomputable def sqrtRecipAc (ac : ℤ → ℝ) (t : ℤ) : ℝ := Real.sqrt (1 / ac t)

/-- Buffer sqrt_recipm1_alphas_cumprod (modeling_diffusiondet.py line 96). -/
noncomputable def sqrtRecipm1Ac (ac : ℤ → ℝ) (t : ℤ) : ℝ := Real.sqrt (1 / ac t - 1)

/-- DiffusionDet.q_sample (modeling_diffusiondet.py lines 223-230), the
closed-form forward corruption, on one box (broadcast is componentwise). -/
noncomputable def q_sample (ac : ℤ → ℝ) (x_start : Box) (t : ℤ) (noise : Box) : Box :=
  fun k => sqrtAc ac t * x_start k + sqrtOneMinusAc ac t * noise k

/-- DiffusionDet.predict_noise_from_start (modeling_diffusiondet.py lines
129-133), the algebraic noise recovery, on one box. -/
noncomputable def predict_noise_from_start (ac : ℤ → ℝ) (x_t : Box) (t : ℤ) (x0 : Box) : Box :=
  fun k => (sqrtRecipAc ac t * x_t k - x0 k) / sqrtRecipm1Ac ac t

/-- C3: for every clean box x0, timestep t, and noise eps, corrupting with
q_sample and then applying predict_noise_from_start to the result and x0
returns exactly the injected noise, provided the cumulative
noise-retention coefficient at t lies strictly between 0 and 1 (as it does
for the cosine schedule on timesteps 0..T-1). -/
theorem q_sample_predict_noise_roundtrip (ac : ℤ → ℝ) (t : ℤ) (x0 noise : Box)
    (h0 : 0 < ac t) (h1 : ac t < 1) :
    predict_noise_from_start ac (q_sample ac x0 t noise) t x0 = noise := by
  funext k
  unfold predict_noise_from_start q_sample sqrtRecipAc sqrtRecipm1Ac sqrtAc sqrtOneMinusAc
  have ha : Real.sqrt (ac t) ≠ 0 := ne_of_gt (Real.sqrt_pos.mpr h0)
  have hb : Real.sqrt (1 - ac t) ≠ 0 := ne_of_gt (Real.sqrt_pos.mpr (by linarith))
  have h2 : (1 / ac t - 1) = (1 - ac t) / ac t := by field_simp
  have h3 : (1 / ac t) = (ac t)⁻¹ := one_div _
  rw [h2, h3, Real.sqrt_inv, Real.sqrt_div (by linarith : (0:ℝ) ≤ 1 - ac t)]
  field_simp

/-- Witness for C3 at a concrete schedule value and concrete boxes. -/
theorem q_sample_predict_noise_roundtrip_witness :
    predict_noise_from_start (fun _ => (1:ℝ)/4) (q_sample (fun _ => (1:ℝ)/4) (fun _ => 1) 0 (fun _ => 2)) 0 (fun _ => 1)
      = (fun _ => 2) :=
  q_sample_predict_noise_roundtrip (fun _ => (1:ℝ)/4) 0 (fun _ => 1) (fun _ => 2)
    (by norm_num) (by norm_num)

/- ---------------------------------------------------------------------
Box-delta decoding (head.py lines 280-318).
--------------------------------------------------------------------- -/

/-- _DEFAULT_SCALE_CLAMP = math.log(1000.0 / 16) (head.py line 10). -/
noncomputable def scaleClamp : ℝ := Real.log (1000 / 16)

/-- DiffusionDetHead.apply_deltas (head.py lines 280-318) for a single box
and a single 4-component delta, with bbox_weights = (2.0, 2.0, 1.0, 1.0)
(head.py line 231); torch.clamp with only a max bound is min. -/
noncomputable def apply_deltas (deltas : Box) (box : Box) : Box :=
  let widths := box 2 - box 0
  let heights := box 3 - box 1
  let ctr_x := box 0 + 0.5 * widths
  let ctr_y := box 1 + 0.5 * heights
  let dx := deltas 0 / 2
  let dy := deltas 1 / 2
  let dw := min (deltas 2 / 1) scaleClamp
  let dh := min (deltas 3 / 1) scaleClamp
  let pred_ctr_x := dx * widths + ctr_x
  let pred_ctr_y := dy * heights + ctr_y
  let pred_w := Real.exp dw * widths
  let pred_h := Real.exp dh * heights
  ![pred_ctr_x - 0.5 * pred_w, pred_ctr_y - 0.5 * pred_h,
    pred_ctr_x + 0.5 * pred_w, pred_ctr_y + 0.5 * pred_h]

/-- C8: the box-delta decoder is the identity on an all-zero delta: the
clamp ceiling log(1000/16) is nonnegative so clamping keeps the zero
width/height deltas, exp 0 = 1 keeps the size, and the center shift is
zero.  Exact over the reals. -/
theorem apply_deltas_zero (box : Box) : apply_deltas (fun _ => 0) box = box := by
  have hc : (0:ℝ) ≤ scaleClamp := Real.log_nonneg (by norm_num)
  funext k
  unfold apply_deltas
  have hmin : (0:ℝ) ⊓ scaleClamp = 0 := min_eq_left hc
  fin_cases k <;>
    simp [hmin, Real.exp_zero] <;> ring

/- ---------------------------------------------------------------------
Pyramid level assignment (head.py lines 22-37) and the multi-level ROI
pooler forward pass (head.py lines 360-386).  The aligned bilinear region
pooling itself is an external torchvision operator, modelled as an
abstract per-level function pool.
--------------------------------------------------------------------- -/

/-- assign_boxes_to_levels (head.py lines 22-37) for one corner-form box:
floor(canonical_level + log2(sqrt(area)/canonical_box_size + 1e-8)),
clamped to the integer range from min_level to max_level, minus min_level
(torch.clamp with both bounds is min-of-max). -/
noncomputable def assign_boxes_to_levels (mn mx : ℤ) (c : ℝ) (cl : ℤ) (b : Box) : ℤ :=
  min (max ⌊(cl : ℝ) + Real.logb 2 (Real.sqrt ((b 2 - b 0) * (b 3 - b 1)) / c + 1e-8)⌋ mn) mx - mn

theorem clamp_sub_range (x mn mx : ℤ) (h : mn ≤ mx) :
    0 ≤ min (max x mn) mx - mn ∧ min (max x mn) mx - mn ≤ mx - mn :=
  ⟨sub_nonneg.mpr (le_min (le_max_right x mn) h), sub_le_sub_right (min_le_right _ _) mn⟩

theorem assign_mem_range (mn mx : ℤ) (c : ℝ) (cl : ℤ) (b : Box) (hml : mn ≤ mx) :
    0 ≤ assign_boxes_to_levels mn mx c cl b ∧
      assign_boxes_to_levels mn mx c cl b ≤ mx - mn := by
  unfold assign_boxes_to_levels
  exact clamp_sub_range _ mn mx hml

/-- A box with the same first corner and doubled width and height. -/
def doubleBox (b : Box) : Box := fun k =>
  if k = 2 then b 0 + 2 * (b 2 - b 0) else if k = 3 then b 1 + 2 * (b 3 - b 1) else b k

/-- C4: the pyramid level assignment equals the clamped floor-log2 formula
of the box area, the returned offset always lies between 0 and
max_level - min_level (so the clamped level lies between min_level and
max_level), and doubling the linear size of a box never decreases the
assigned level. -/
theorem assign_boxes_to_levels_spec (mn mx : ℤ) (c : ℝ) (cl : ℤ) (b : Box)
    (hc : 0 < c) (hml : mn ≤ mx) (hw : b 0 ≤ b 2) (hh : b 1 ≤ b 3) :
    assign_boxes_to_levels mn mx c cl b
        = min (max ⌊(cl : ℝ) + Real.logb 2 (Real.sqrt ((b 2 - b 0) * (b 3 - b 1)) / c + 1e-8)⌋ mn) mx
            - mn
      ∧ (0 ≤ assign_boxes_to_levels mn mx c cl b ∧
          assign_boxes_to_levels mn mx c cl b ≤ mx - mn)
      ∧ assign_boxes_to_levels mn mx c cl b ≤ assign_boxes_to_levels mn mx c cl (doubleBox b) := by
  refine ⟨rfl, assign_mem_range mn mx c cl b hml, ?_⟩
  have e0 : doubleBox b 0 = b 0 := rfl
  have e1 : doubleBox b 1 = b 1 := rfl
  have e2 : doubleBox b 2 = b 0 + 2 * (b 2 - b 0) := rfl
  have e3 : doubleBox b 3 = b 1 + 2 * (b 3 - b 1) := rfl
  unfold assign_boxes_to_levels
  rw [e0, e1, e2, e3]
  have harea : (0:ℝ) ≤ (b 2 - b 0) * (b 3 - b 1) := mul_nonneg (by linarith) (by linarith)
  have hsq4 : Real.sqrt 4 = 2 := by
    rw [show (4:ℝ) = 2 ^ 2 by norm_num, Real.sqrt_sq (by norm_num : (0:ℝ) ≤ 2)]
  have hsqrt : Real.sqrt ((b 0 + 2 * (b 2 - b 0) - b 0) * (b 1 + 2 * (b 3 - b 1) - b 1))
      = 2 * Real.sqrt ((b 2 - b 0) * (b 3 - b 1)) := by
    rw [show (b 0 + 2 * (b 2 - b 0) - b 0) * (b 1 + 2 * (b 3 - b 1) - b 1)
        = 4 * ((b 2 - b 0) * (b 3 - b 1)) by ring,
      Real.sqrt_mul (by norm_num : (0:ℝ) ≤ 4), hsq4]
  rw [hsqrt]
  have hs : (0:ℝ) ≤ Real.sqrt ((b 2 - b 0) * (b 3 - b 1)) := Real.sqrt_nonneg _
  have harg : Real.sqrt ((b 2 - b 0) * (b 3 - b 1)) / c + 1e-8
      ≤ 2 * Real.sqrt ((b 2 - b 0) * (b 3 - b 1)) / c + 1e-8 := by
    have h4 : Real.sqrt ((b 2 - b 0) * (b 3 - b 1)) / c
        ≤ 2 * Real.sqrt ((b 2 - b 0) * (b 3 - b 1)) / c :=
      (div_le_div_iff_of_pos_right hc).mpr (by linarith)
    linarith
  have hpos : (0:ℝ) < Real.sqrt ((b 2 - b 0) * (b 3 - b 1)) / c + 1e-8 := by
    have : (0:ℝ) ≤ Real.sqrt ((b 2 - b 0) * (b 3 - b 1)) / c := div_nonneg hs hc.le
    norm_num
    linarith
  have hlog := Real.logb_le_logb_of_le (by norm_num : (1:ℝ) < 2) hpos harg
  have hfl : ⌊(cl : ℝ) + Real.logb 2 (Real.sqrt ((b 2 - b 0) * (b 3 - b 1)) / c + 1e-8)⌋
      ≤ ⌊(cl : ℝ) + Real.logb 2 (2 * Real.sqrt ((b 2 - b 0) * (b 3 - b 1)) / c + 1e-8)⌋ :=
    Int.floor_mono (by linarith)
  exact sub_le_sub_right (min_le_min (max_le_max hfl le_rfl) le_rfl) mn


/-- Witness for C4 at a concrete configuration and a concrete box. -/
theorem assign_boxes_to_levels_spec_witness :
    0 ≤ assign_boxes_to_levels 2 5 224 4 (fun _ => 0) ∧
      assign_boxes_to_levels 2 5 224 4 (fun _ => 0) ≤ 5 - 2 :=
  (assign_boxes_to_levels_spec 2 5 224 4 (fun _ => 0) (by norm_num) (by norm_num)
    (le_refl _) (le_refl _)).2.1

/-- One scatter update of ROIPooler.forward (head.py lines 380-384):
positions whose level assignment equals this level are overwritten with
this level's pooled value (index_put_ by original box index); an empty
partition overwrites nothing. -/
noncomputable def poolScatterStep {β : Type} (mn mx : ℤ) (c : ℝ) (cl : ℤ)
    (pool : ℕ → Box → β) (boxes : ℕ → Box) (out : ℕ → β) (level : ℕ) : ℕ → β :=
  fun i =>
    if assign_boxes_to_levels mn mx c cl (boxes i) = (level : ℤ) then pool level (boxes i)
    else out i

/-- ROIPooler.forward (head.py lines 360-386): with a single level the
boxes are pooled directly against it with no level assignment; otherwise a
zero buffer z is filled by scattering each level's pooled partition back
by original box index.  The aligned bilinear pooling is the abstract
per-level function pool. -/
noncomputable def ROIPooler_forward {β : Type} (L : ℕ) (mn mx : ℤ) (c : ℝ) (cl : ℤ)
    (pool : ℕ → Box → β) (z : β) (boxes : ℕ → Box) : ℕ → β :=
  if L = 1 then fun i => pool 0 (boxes i)
  else (List.range L).foldl (poolScatterStep mn mx c cl pool boxes) (fun _ => z)

theorem poolScatterStep_apply {β : Type} (mn mx : ℤ) (c : ℝ) (cl : ℤ)
    (pool : ℕ → Box → β) (boxes : ℕ → Box) (out : ℕ → β) (level : ℕ) (i : ℕ) :
    poolScatterStep mn mx c cl pool boxes out level i
      = if assign_boxes_to_levels mn mx c cl (boxes i) = (level : ℤ) then pool level (boxes i)
        else out i := rfl

theorem poolScatter_foldl {β : Type} (mn mx : ℤ) (c : ℝ) (cl : ℤ)
    (pool : ℕ → Box → β) (boxes : ℕ → Box) (init : ℕ → β) (L : ℕ) (i : ℕ) :
    ((List.range L).foldl (poolScatterStep mn mx c cl pool boxes) init) i
      = if 0 ≤ assign_boxes_to_levels mn mx c cl (boxes i)
            ∧ assign_boxes_to_levels mn mx c cl (boxes i) < (L : ℤ)
        then pool (assign_boxes_to_levels mn mx c cl (boxes i)).toNat (boxes i)
        else init i := by
  set a := assign_boxes_to_levels mn mx c cl (boxes i) with ha
  induction L generalizing init with
  | zero =>
    rw [List.range_zero]
    simp only [List.foldl_nil]
    rw [if_neg (by omega)]
  | succ n ih =>
    rw [List.range_succ, List.foldl_append]
    simp only [List.foldl_cons, List.foldl_nil]
    rw [poolScatterStep_apply, ih]
    by_cases h : a = (n : ℤ)
    · rw [if_pos h, if_pos (show 0 ≤ a ∧ a < ((n+1 : ℕ) : ℤ) by omega)]
      congr 1
      omega
    · rw [if_neg h]
      by_cases h2 : 0 ≤ a ∧ a < (n : ℤ)
      · rw [if_pos h2, if_pos (by omega)]
      · rw [if_neg h2, if_neg (by omega)]

/-- C5: the pooler's output at position i is the pooled value of input box
i at its own assigned level, for every number of levels L >= 1 consistent
with the level range: output ordering exactly matches input box ordering
(with one level the assignment is degenerate and level 0 is used
directly). -/
theorem ROIPooler_forward_ordering {β : Type} (L : ℕ) (mn mx : ℤ) (c : ℝ) (cl : ℤ)
    (pool : ℕ → Box → β) (z : β) (boxes : ℕ → Box) (i : ℕ)
    (hL : (L : ℤ) = mx - mn + 1) (hml : mn ≤ mx) :
    ROIPooler_forward L mn mx c cl pool z boxes i
      = pool (assign_boxes_to_levels mn mx c cl (boxes i)).toNat (boxes i) := by
  obtain ⟨hr1, hr2⟩ := assign_mem_range mn mx c cl (boxes i) hml
  unfold ROIPooler_forward
  by_cases h1 : L = 1
  · rw [if_pos h1]
    have hval : assign_boxes_to_levels mn mx c cl (boxes i) = 0 := by omega
    rw [hval]
    rfl
  · rw [if_neg h1, poolScatter_foldl, if_pos (by omega)]

/-- Witness for C5 with two levels and a concrete box set. -/
theorem ROIPooler_forward_ordering_witness :
    ROIPooler_forward 2 2 3 224 4 (fun l _ => l) 99 (fun _ _ => 0) 0
      = (assign_boxes_to_levels 2 3 224 4 (fun _ => 0)).toNat :=
  ROIPooler_forward_ordering 2 2 3 224 4 (fun l _ => l) 99 (fun _ _ => 0) 0
    (by norm_num) (by norm_num)

/- ---------------------------------------------------------------------
Ground-truth padding for the forward corruption
(DiffusionDet.prepare_diffusion_concat, modeling_diffusiondet.py lines
295-330).  Only the x_start construction (lines 303-318) is claimed; the
Gaussian draws and the shuffled subsampling mask are oracles.
--------------------------------------------------------------------- -/

/-- Python boolean-mask selection xs[m] for equal-length lists. -/
def maskSelect {α : Type} : List α → List Bool → List α
  | x :: xs, b :: m => if b then x :: maskSelect xs m else maskSelect xs m
  | _, _ => []

theorem maskSelect_length {α : Type} :
    ∀ (xs : List α) (m : List Bool), xs.length = m.length →
      (maskSelect xs m).length = m.count true := by
  intro xs
  induction xs with
  | nil =>
    intro m h
    cases m with
    | nil => rfl
    | cons b m => simp at h
  | cons x xs ih =>
    intro m h
    cases m with
    | nil => simp at h
    | cons b m =>
      have h' : xs.length = m.length := by simpa using h
      cases b with
      | true => simp [maskSelect, ih m h', List.count_cons]
      | false => simp [maskSelect, ih m h', List.count_cons]

theorem maskSelect_sublist {α : Type} :
    ∀ (xs : List α) (m : List Bool), (maskSelect xs m).Sublist xs := by
  intro xs
  induction xs with
  | nil =>
    intro m
    cases m <;> exact List.Sublist.refl _
  | cons x xs ih =>
    intro m
    cases m with
    | nil => exact List.nil_sublist _
    | cons b m =>
      cases b with
      | true => simpa [maskSelect] using (ih m).cons₂ x
      | false => simpa [maskSelect] using (ih m).cons x

/-- The full-image placeholder box (0.5, 0.5, 1, 1) substituted for an
empty ground-truth set (modeling_diffusiondet.py line 305). -/
noncomputable def fullImageBox : Box := fun k => if (k : ℕ) < 2 then 0.5 else 1

/-- A padding placeholder box (modeling_diffusiondet.py lines 309-311):
a standard normal draw scaled by 1/6 and shifted to the image center 0.5,
with the two size components clipped below at 1e-4; g is the Gaussian
oracle. -/
noncomputable def boxPlaceholder (g : ℕ → Box) (i : ℕ) : Box := fun k =>
  if 2 ≤ (k : ℕ) then max (g i k / 6 + 0.5) 1e-4 else g i k / 6 + 0.5

/-- Ground truth after the empty-set substitution
(modeling_diffusiondet.py lines 304-306). -/
noncomputable def gtOrFake (gt : List Box) : List Box :=
  if gt = [] then [fullImageBox] else gt

/-- The x_start construction of DiffusionDet.prepare_diffusion_concat
(modeling_diffusiondet.py lines 303-318): fewer boxes than num_proposals
are padded with placeholder boxes, originals kept first; more are
subsampled by a shuffled boolean mask (the oracle mask, built in the
source with exactly num_proposals true entries); an exact count is kept
as is. -/
noncomputable def prepare_gt_boxes (num_proposals : ℕ) (gt : List Box)
    (g : ℕ → Box) (mask : List Bool) : List Box :=
  let gt1 := gtOrFake gt
  if gt1.length < num_proposals then
    gt1 ++ (List.range (num_proposals - gt1.length)).map (boxPlaceholder g)
  else if num_proposals < gt1.length then maskSelect gt1 mask
  else gt1

/-- C6: the padded ground-truth set always has exactly num_proposals
boxes; when padding occurs the original (or substituted full-image) boxes
come first unchanged and every appended placeholder has both size
components at least the positive floor 1e-4; when subsampling occurs the
result is an order-preserving subsequence (without replacement) of the
ground truth; an empty ground-truth set is first replaced by the single
full-image box. -/
theorem prepare_gt_boxes_spec (np : ℕ) (gt : List Box) (g : ℕ → Box) (mask : List Bool)
    (hm1 : mask.length = (gtOrFake gt).length)
    (hm2 : mask.count true = min np (gtOrFake gt).length) :
    (prepare_gt_boxes np gt g mask).length = np
      ∧ ((gtOrFake gt).length ≤ np →
          (prepare_gt_boxes np gt g mask).take (gtOrFake gt).length = gtOrFake gt)
      ∧ (∀ b ∈ (prepare_gt_boxes np gt g mask).drop (gtOrFake gt).length,
          (1e-4 : ℝ) ≤ b 2 ∧ (1e-4 : ℝ) ≤ b 3)
      ∧ (np < (gtOrFake gt).length → (prepare_gt_boxes np gt g mask).Sublist (gtOrFake gt))
      ∧ (gt = [] → 1 ≤ np → (prepare_gt_boxes np gt g mask).take 1 = [fullImageBox]) := by
  set gt1 := gtOrFake gt with hgt1
  unfold prepare_gt_boxes
  rw [← hgt1]
  by_cases hlt : gt1.length < np
  · rw [if_pos hlt]
    refine ⟨?_, ?_, ?_, ?_, ?_⟩
    · simp
      omega
    · intro _
      exact List.take_left gt1 _
    · intro b hb
      rw [List.drop_left] at hb
      obtain ⟨i, _, rfl⟩ := List.mem_map.mp hb
      constructor
      · exact le_max_right _ _
      · exact le_max_right _ _
    · intro h
      omega
    · intro hempty hnp
      have h1 : gt1 = [fullImageBox] := by rw [hgt1, gtOrFake, if_pos hempty]
      rw [show (1 : ℕ) = gt1.length by rw [h1]; rfl]
      rw [List.take_left, h1]
  · rw [if_neg hlt]
    by_cases hgtc : np < gt1.length
    · rw [if_pos hgtc]
      refine ⟨?_, ?_, ?_, ?_, ?_⟩
      · rw [maskSelect_length gt1 mask hm1.symm, hm2]
        omega
      · intro h
        omega
      · intro b hb
        have hlen : (maskSelect gt1 mask).length = np := by
          rw [maskSelect_length gt1 mask hm1.symm, hm2]; omega
        rw [List.drop_eq_nil_of_le (by omega)] at hb
        simp at hb
      · intro _
        exact maskSelect_sublist gt1 mask
      · intro hempty hnp
        have h1 : gt1 = [fullImageBox] := by rw [hgt1, gtOrFake, if_pos hempty]
        rw [h1] at hgtc
        simp at hgtc
        omega
    · rw [if_neg hgtc]
      have heq : gt1.length = np := by omega
      refine ⟨heq, ?_, ?_, ?_, ?_⟩
      · intro _
        exact List.take_length gt1
      · intro b hb
        rw [List.drop_length] at hb
        simp at hb
      · intro h
        omega
      · intro hempty hnp
        have h1 : gt1 = [fullImageBox] := by rw [hgt1, gtOrFake, if_pos hempty]
        rw [h1]
        rfl

/-- Witness for C6 with num_proposals = 5 and two ground-truth boxes. -/
theorem prepare_gt_boxes_spec_witness :
    (prepare_gt_boxes 5 [fun _ => (1:ℝ)/4, fun _ => (1:ℝ)/2] (fun _ _ => 0) [true, true]).length = 5 :=
  (prepare_gt_boxes_spec 5 [fun _ => (1:ℝ)/4, fun _ => (1:ℝ)/2] (fun _ _ => 0) [true, true]
    (by simp [gtOrFake]) (by simp [gtOrFake])).1

/- ---------------------------------------------------------------------
ROIPooler construction checks (head.py lines 327-358).
--------------------------------------------------------------------- -/

/-- The python output_size argument of ROIPooler: an int (normalised to a
pair), a 2-tuple of ints, or anything else. -/
inductive TileSize where
  | asInt : ℤ → TileSize
  | asPair : ℤ → ℤ → TileSize
  | malformed : TileSize

/-- Normalisation and the output-size assert of ROIPooler (head.py lines
340-342): an int becomes a pair; the result must be a 2-tuple of ints. -/
def normSize : TileSize → Option (ℤ × ℤ)
  | .asInt n => some (n, n)
  | .asPair a b => some (a, b)
  | .malformed => none

/-- A real number is an integer.  In exact real arithmetic this is what
the isclose comparison of a float with its own int truncation checks
(head.py line 343). -/
def isIntR (x : ℝ) : Prop := ∃ m : ℤ, x = (m : ℝ)

/-- min_level = -log2(scales[0]) (head.py line 337). -/
noncomputable def poolerMinLevel (scales : List ℝ) : ℝ := -(Real.logb 2 scales.headI)

/-- max_level = -log2(scales[-1]) (head.py line 338). -/
noncomputable def poolerMaxLevel (scales : List ℝ) : ℝ := -(Real.logb 2 (scales.getLastD 1))

/-- ROIPooler.__init__ succeeds (head.py lines 327-358): every assert
passes and every arithmetic step is defined.  The first and last scales
must be positive (math.log2 domain); the derived min/max levels must be
integral; the scale count must equal max_level - min_level + 1; levels
must satisfy 0 <= min_level <= max_level; the canonical box size must be
positive; and the output size must normalise to a 2-tuple of ints.  No
assert constrains the sign of the output size entries. -/
def ROIPoolerInitOk (output_size : TileSize) (scales : List ℝ) (canonical_box_size : ℝ) : Prop :=
  (normSize output_size).isSome = true
    ∧ 0 < scales.headI ∧ 0 < scales.getLastD 1
    ∧ isIntR (poolerMinLevel scales) ∧ isIntR (poolerMaxLevel scales)
    ∧ (scales.length : ℝ) = poolerMaxLevel scales - poolerMinLevel scales + 1
    ∧ 0 ≤ poolerMinLevel scales ∧ poolerMinLevel scales ≤ poolerMaxLevel scales
    ∧ 0 < canonical_box_size

/-- Modelled from the spec (amended): construction succeeds exactly when
the output tile size is an int or a 2-tuple of ints (positivity is not
required), the per-level scales are positive at the ends and derive
contiguous, ordered, nonnegative integer levels whose span matches the
scale count, and the canonical box size is positive. -/
def ROIPoolerInitSpec (output_size : TileSize) (scales : List ℝ) (canonical_box_size : ℝ) : Prop :=
  output_size ≠ .malformed
    ∧ (∃ m M : ℤ, 0 ≤ m ∧ m ≤ M ∧ (scales.length : ℤ) = M - m + 1
        ∧ poolerMinLevel scales = (m : ℝ) ∧ poolerMaxLevel scales = (M : ℝ)
        ∧ 0 < scales.headI ∧ 0 < scales.getLastD 1)
    ∧ 0 < canonical_box_size

theorem logb_two_quarter : Real.logb 2 ((1:ℝ)/4) = -2 := by
  have hlog2 : (0:ℝ) < Real.log 2 := Real.log_pos (by norm_num)
  unfold Real.logb
  rw [one_div, Real.log_inv, show (4:ℝ) = 2 ^ (2:ℕ) by norm_num, Real.log_pow]
  field_simp

theorem logb_two_eighth : Real.logb 2 ((1:ℝ)/8) = -3 := by
  have hlog2 : (0:ℝ) < Real.log 2 := Real.log_pos (by norm_num)
  unfold Real.logb
  rw [one_div, Real.log_inv, show (8:ℝ) = 2 ^ (3:ℕ) by norm_num, Real.log_pow]
  field_simp

/-- Counterexample to C9: with a consistent two-level scale configuration
(1/4, 1/8 give levels 2 and 3) and a positive canonical size, construction
succeeds even though the output tile (-3, -3) is a 2-tuple of integers
that is not positive; the claimed fatal failure does not occur. -/
theorem roiPoolerInit_accepts_nonpositive_tile :
    ROIPoolerInitOk (.asPair (-3) (-3)) [(1:ℝ)/4, (1:ℝ)/8] 224 ∧ ¬(0 < (-3 : ℤ)) := by
  have hmin : poolerMinLevel [(1:ℝ)/4, (1:ℝ)/8] = 2 := by
    unfold poolerMinLevel
    rw [show ([(1:ℝ)/4, (1:ℝ)/8].headI) = (1:ℝ)/4 from rfl, logb_two_quarter]
    norm_num
  have hmax : poolerMaxLevel [(1:ℝ)/4, (1:ℝ)/8] = 3 := by
    unfold poolerMaxLevel
    rw [show ([(1:ℝ)/4, (1:ℝ)/8].getLastD 1) = (1:ℝ)/8 from rfl, logb_two_eighth]
    norm_num
  refine ⟨⟨rfl, by norm_num, by norm_num, ⟨2, by rw [hmin]; norm_num⟩,
    ⟨3, by rw [hmax]; norm_num⟩, by rw [hmin, hmax]; norm_num,
    by rw [hmin]; norm_num, by rw [hmin, hmax]; norm_num, by norm_num⟩, by norm_num⟩

/-- C9 (amended): the construction check of ROIPooler holds exactly under
the amended failure characterisation: inconsistent (non-integral,
non-contiguous, misordered, or negative-level) scale configurations,
non-positive canonical box size, or an output size that is not an int or
a 2-tuple of ints all fail, and nothing else does - in particular the
sign of the output tile entries is not constrained. -/
theorem roiPoolerInitOk_iff_spec (output_size : TileSize) (scales : List ℝ)
    (canonical_box_size : ℝ) :
    ROIPoolerInitOk output_size scales canonical_box_size
      ↔ ROIPoolerInitSpec output_size scales canonical_box_size := by
  unfold ROIPoolerInitOk ROIPoolerInitSpec
  constructor
  · rintro ⟨hsome, hs1, hs2, ⟨m, hm⟩, ⟨M, hM⟩, hlen, h0, hord, hc⟩
    refine ⟨?_, ⟨m, M, ?_, ?_, ?_, hm, hM, hs1, hs2⟩, hc⟩
    · intro h
      rw [h] at hsome
      simp [normSize] at hsome
    · rw [hm] at h0
      exact_mod_cast h0
    · rw [hm, hM] at hord
      exact_mod_cast hord
    · rw [hm, hM] at hlen
      exact_mod_cast hlen
  · rintro ⟨hnm, ⟨m, M, h0m, hmM, hlen, hm, hM, hs1, hs2⟩, hc⟩
    refine ⟨?_, hs1, hs2, ⟨m, hm⟩, ⟨M, hM⟩, ?_, ?_, ?_, hc⟩
    · cases output_size with
      | asInt n => rfl
      | asPair a b => rfl
      | malformed => exact absurd rfl hnm
    · rw [hm, hM]
      exact_mod_cast hlen
    · rw [hm]
      exact_mod_cast h0m
    · rw [hm, hM]
      exact_mod_cast hmM

/- ---------------------------------------------------------------------
The reverse sampler DiffusionDet.ddim_sample (modeling_diffusiondet.py
lines 151-221) and DiffusionDet.inference (lines 361-424).  The learned
stacked head and all Gaussian draws are oracles; torch tensors are nested
lists; shape errors of tensor operations surface as none.
--------------------------------------------------------------------- -/

/-- Maximum of a list of reals (torch.max over the class dimension;
defined as 0 on the empty list, which torch rejects). -/
noncomputable def listMax : List ℝ → ℝ
  | [] => 0
  | x :: xs => xs.foldl max x

/-- torch.clamp(x, min=-s, max=s), componentwise. -/
noncomputable def clampBox (s : ℝ) (b : Box) : Box := fun k => min (max (b k) (-s)) s

/-- torchvision box_convert from center form to corner form. -/
noncomputable def cxcywh_to_xyxy (b : Box) : Box :=
  ![b 0 - b 2 / 2, b 1 - b 3 / 2, b 0 + b 2 / 2, b 1 + b 3 / 2]

/-- torchvision box_convert from corner form to center form. -/
noncomputable def xyxy_to_cxcywh (b : Box) : Box :=
  ![(b 0 + b 2) / 2, (b 1 + b 3) / 2, b 2 - b 0, b 3 - b 1]

/-- Componentwise product with the per-image whwh size vector. -/
noncomputable def boxMul (w b : Box) : Box := fun k => b k * w k

/-- Componentwise division by the per-image whwh size vector. -/
noncomputable def boxDiv (w b : Box) : Box := fun k => b k / w k

/-- The configuration fields of DiffusionDet used by the reverse sampler;
ac is the alphas_cumprod buffer. -/
structure DDCfg where
  num_proposals : ℕ
  num_timesteps : ℕ
  sampling_timesteps : ℕ
  scale : ℝ
  num_classes : ℕ
  use_focal : Bool
  use_fed_loss : Bool
  use_nms : Bool
  ac : ℤ → ℝ

/-- The final-stage output of the stacked head HeadDynamicK: class logits
(batch, proposals, classes) and refined corner-form boxes
(batch, proposals). -/
structure HeadOut where
  cls : List (List (List ℝ))
  coord : List (List Box)

/-- The oracles of one sampling run: the learned stacked head, the
per-step randn_like draw (step, image, slot) and the per-step renewal
noise draw (step, slot). -/
structure Oracles where
  head : List (List Box) → ℤ → HeadOut
  stepNoise : ℕ → ℕ → ℕ → Box
  renewNoise : ℕ → ℕ → Box

/-- The input transform of model_predictions (lines 136-139): clamp to
[-scale, scale], rescale into [0, 1], convert to corner form, scale by
the per-image whwh sizes. -/
noncomputable def inputBoxes (cfg : DDCfg) (whwh : List Box) (x : List (List Box)) :
    List (List Box) :=
  (x.zip whwh).map fun p =>
    p.1.map fun b => boxMul p.2 (cxcywh_to_xyxy (fun k => (clampBox cfg.scale b k / cfg.scale + 1) / 2))

/-- The output transform of model_predictions (lines 142-146): divide by
whwh, convert to center form, rescale to [-scale, scale], clamp. -/
noncomputable def outputXStart (cfg : DDCfg) (whwh : List Box) (coord : List (List Box)) :
    List (List Box) :=
  (coord.zip whwh).map fun p =>
    p.1.map fun b => clampBox cfg.scale (fun k => (xyxy_to_cxcywh (boxDiv p.2 b) k * 2 - 1) * cfg.scale)

/-- predict_noise_from_start broadcast over the batch (line 147). -/
noncomputable def predNoiseBatch (cfg : DDCfg) (t : ℤ) (x xstart : List (List Box)) :
    List (List Box) :=
  (x.zip xstart).map fun p => (p.1.zip p.2).map fun q => predict_noise_from_start cfg.ac q.1 t q.2

/-- The per-step confidence keep mask (lines 172-176): computed from the
class logits of the first image only; a proposal is kept when its maximum
sigmoid class score strictly exceeds the threshold 0.5. -/
noncomputable def keepMask (cls : List (List (List ℝ))) : List Bool :=
  cls.headI.map fun cs => decide ((1:ℝ)/2 < listMax (cs.map sigmoid))

/-- Stable descending insertion by score, determinising the unspecified
tie order of torch topk and sort. -/
noncomputable def insertIdxDesc (score : ℕ → ℝ) (i : ℕ) : List ℕ → List ℕ
  | [] => [i]
  | j :: rest => if decide (score j < score i) then i :: j :: rest else j :: insertIdxDesc score i rest

/-- Index sort in descending score order. -/
noncomputable def sortIdxDesc (score : ℕ → ℝ) : List ℕ → List ℕ
  | [] => []
  | i :: rest => insertIdxDesc score i (sortIdxDesc score rest)

/-- torch.Tensor.topk(k, sorted=False) on a flat score list: indices of
the k largest entries. -/
noncomputable def topkIdx (l : List ℝ) (k : ℕ) : List ℕ :=
  (sortIdxDesc (fun i => l.getD i 0) (List.range l.length)).take k

/-- Softmax of a logit list. -/
noncomputable def softmaxL (l : List ℝ) : List ℝ :=
  l.map fun x => Real.exp x / (l.map Real.exp).sum

/-- Index of a maximal entry (torch.max index output, first occurrence). -/
noncomputable def listArgmax (l : List ℝ) : ℕ := l.findIdx fun x => decide (listMax l ≤ x)

/-- The focal/fed-loss per-image conversion of DiffusionDet.inference
(lines 379-390): sigmoid scores, topk over the flattened proposals-times-
classes scores, labels j mod num_classes, boxes j div num_classes. -/
noncomputable def inferenceTopk (cfg : DDCfg) (cls0 : List (List ℝ)) (coord0 : List Box) :
    List Box × List ℝ × List ℕ :=
  let flat := (cls0.map (List.map sigmoid)).flatten
  let idx := topkIdx flat cfg.num_proposals
  (idx.map fun j => coord0.getD (j / cfg.num_classes) (fun _ => 0),
   idx.map fun j => flat.getD j 0,
   idx.map fun j => j % cfg.num_classes)

/-- The softmax per-image conversion (lines 404-412): per-proposal softmax
over classes, drop the background column, take the max score and the
argmax label. -/
noncomputable def inferenceSoft (cls0 : List (List ℝ)) (coord0 : List Box) :
    List Box × List ℝ × List ℕ :=
  (coord0, cls0.map fun l => listMax ((softmaxL l).dropLast),
   cls0.map fun l => listArgmax ((softmaxL l).dropLast))

/-- The early return of DiffusionDet.inference taken at the first image of
the per-image loop when sampling_timesteps exceeds 1 (lines 392-393 and
411-412). -/
noncomputable def inferenceEarly (cfg : DDCfg) (cls : List (List (List ℝ)))
    (coord : List (List Box)) : List Box × List ℝ × List ℕ :=
  if cfg.use_focal || cfg.use_fed_loss then inferenceTopk cfg cls.headI coord.headI
  else inferenceSoft cls.headI coord.headI

/-- Corner-form box area. -/
noncomputable def boxArea (b : Box) : ℝ := (b 2 - b 0) * (b 3 - b 1)

/-- Intersection over union of two corner-form boxes. -/
noncomputable def iou (a b : Box) : ℝ :=
  max 0 (min (a 2) (b 2) - max (a 0) (b 0)) * max 0 (min (a 3) (b 3) - max (a 1) (b 1))
    / (boxArea a + boxArea b
        - max 0 (min (a 2) (b 2) - max (a 0) (b 0)) * max 0 (min (a 3) (b 3) - max (a 1) (b 1)))

/-- Greedy class-aware suppression: scan candidates in descending score
order and keep a candidate exactly when its IoU with every already kept
candidate of the same label is at most the threshold. -/
noncomputable def nmsGreedy (boxes : ℕ → Box) (labels : ℕ → ℕ) (thr : ℝ) :
    List ℕ → List ℕ → List ℕ
  | [], acc => acc.reverse
  | i :: rest, acc =>
      if acc.all fun j => decide (labels j ≠ labels i) || decide (iou (boxes i) (boxes j) ≤ thr) then
        nmsGreedy boxes labels thr rest (i :: acc)
      else nmsGreedy boxes labels thr rest acc

/-- torchvision.ops.batched_nms: greedy suppression restricted to equal
labels, in descending score order; returns the kept indices. -/
noncomputable def batched_nms (boxes : List Box) (scores : List ℝ) (labels : List ℕ)
    (thr : ℝ) : List ℕ :=
  nmsGreedy (fun i => boxes.getD i fun _ => 0) (fun i => labels.getD i 0) thr
    (sortIdxDesc (fun i => scores.getD i 0) (List.range boxes.length)) []

/-- The value returned by ddim_sample: the flat ensembled triple of the
multi-step path, or the per-image lists of the single-step path. -/
inductive DDIMResult where
  | ensembled : List Box → List ℝ → List ℕ → DDIMResult
  | perImage : List (List Box) → List (List ℝ) → List (List ℕ) → DDIMResult

/-- Optional class-aware suppression of the single-step inference path
(lines 395-399 and 414-418). -/
noncomputable def nmsFilter (cfg : DDCfg) (t : List Box × List ℝ × List ℕ) :
    List Box × List ℝ × List ℕ :=
  if cfg.use_nms then
    let keep := batched_nms t.1 t.2.1 t.2.2 (1/2)
    (keep.map fun i => t.1.getD i fun _ => 0,
     keep.map fun i => t.2.1.getD i 0,
     keep.map fun i => t.2.2.getD i 0)
  else t

/-- DiffusionDet.inference (lines 361-424): with several sampling steps it
returns the first image's converted triple immediately (the early return
inside the per-image loop); otherwise it converts every image, optionally
suppresses, and collects per-image lists. -/
noncomputable def inference (cfg : DDCfg) (cls : List (List (List ℝ)))
    (coord : List (List Box)) : DDIMResult :=
  if 1 < cfg.sampling_timesteps then
    let t := inferenceEarly cfg cls coord
    .ensembled t.1 t.2.1 t.2.2
  else
    if cfg.use_focal || cfg.use_fed_loss then
      let ts := (cls.zip coord).map fun p => nmsFilter cfg (inferenceTopk cfg p.1 p.2)
      .perImage (ts.map fun t => t.1) (ts.map fun t => t.2.1) (ts.map fun t => t.2.2)
    else
      let ts := (cls.zip coord).map fun p => nmsFilter cfg (inferenceSoft p.1 p.2)
      .perImage (ts.map fun t => t.1) (ts.map fun t => t.2.1) (ts.map fun t => t.2.2)

/-- The mutable state of the ddim_sample loop: the noisy box set, the
three ensemble buffers, the last head output, and a step counter indexing
the noise oracles. -/
structure LoopState where
  img : List (List Box)
  ensS : List (List ℝ)
  ensL : List (List ℕ)
  ensC : List (List Box)
  lastOut : Option HeadOut
  k : ℕ

/-- One iteration of the ddim_sample loop (lines 166-206) on the time pair
(time, time_next).  Returns none when the renewal concatenation (line 199)
is ill-shaped: it concatenates along the proposal dimension a fresh noise
tensor whose batch dimension is fixed at 1, which torch rejects unless the
batch holds exactly one image. -/
noncomputable def ddimStep (cfg : DDCfg) (orc : Oracles) (whwh : List Box)
    (st : LoopState) (tp : ℤ × ℤ) : Option LoopState :=
  let out := orc.head (inputBoxes cfg whwh st.img) tp.1
  let x_start0 := outputXStart cfg whwh out.coord
  let pred_noise0 := predNoiseBatch cfg tp.1 st.img x_start0
  let keep := keepMask out.cls
  let num_remain := keep.count true
  let pred_noise := pred_noise0.map fun l => maskSelect l keep
  let x_start := x_start0.map fun l => maskSelect l keep
  let img1 := st.img.map fun l => maskSelect l keep
  if tp.2 < 0 then
    some { img := x_start, ensS := st.ensS, ensL := st.ensL, ensC := st.ensC,
           lastOut := some out, k := st.k + 1 }
  else
    let alpha := cfg.ac tp.1
    let alpha_next := cfg.ac tp.2
    let sigma := Real.sqrt ((1 - alpha / alpha_next) * (1 - alpha_next) / (1 - alpha))
    let c := Real.sqrt (1 - alpha_next - sigma ^ 2)
    let imgU := (List.range img1.length).map fun b =>
      (List.range (img1.getD b []).length).map fun j => fun comp =>
        ((x_start.getD b []).getD j fun _ => 0) comp * Real.sqrt alpha_next
          + c * ((pred_noise.getD b []).getD j fun _ => 0) comp
          + sigma * orc.stepNoise st.k b j comp
    if imgU.length = 1 then
      let renewed := imgU.headI
        ++ (List.range (cfg.num_proposals - num_remain)).map (orc.renewNoise st.k)
      if 1 < cfg.sampling_timesteps then
        let tr := inferenceEarly cfg out.cls out.coord
        some { img := [renewed], ensS := st.ensS ++ [tr.2.1], ensL := st.ensL ++ [tr.2.2],
               ensC := st.ensC ++ [tr.1], lastOut := some out, k := st.k + 1 }
      else
        some { img := [renewed], ensS := st.ensS, ensL := st.ensL, ensC := st.ensC,
               lastOut := some out, k := st.k + 1 }
    else none

/-- The ddim_sample loop over the list of time pairs. -/
noncomputable def ddimLoop (cfg : DDCfg) (orc : Oracles) (whwh : List Box) :
    List (ℤ × ℤ) → LoopState → Option LoopState
  | [], st => some st
  | tp :: rest, st =>
      match ddimStep cfg orc whwh st tp with
      | none => none
      | some st2 => ddimLoop cfg orc whwh rest st2

/-- Integer truncation toward zero (the python int() cast applied by
torch.Tensor.int, modelled exactly on the rationals). -/
def ratTrunc (q : ℚ) : ℤ := if 0 ≤ q then ⌊q⌋ else ⌈q⌉

/-- Entry i of torch.linspace(-1, num_timesteps - 1, steps) after int
truncation (lines 157-159). -/
def sampleTime (T S i : ℕ) : ℤ := ratTrunc (-1 + (i : ℚ) * (T : ℚ) / (S : ℚ))

/-- The reversed truncated linspace of sampling times (lines 157-159). -/
def timesList (T S : ℕ) : List ℤ :=
  ((List.range (S + 1)).map (sampleTime T S)).reverse

/-- The consecutive time pairs driving the loop (line 160). -/
def timePairs (T S : ℕ) : List (ℤ × ℤ) := (timesList T S).zip ((timesList T S).drop 1)

/-- The loop state at entry of ddim_sample (lines 162-165): the initial
Gaussian box set, empty ensemble buffers, no head output yet. -/
noncomputable def initState (img : List (List Box)) : LoopState :=
  { img := img, ensS := [], ensL := [], ensC := [], lastOut := none, k := 0 }

/-- DiffusionDet.ddim_sample (lines 151-221): run the loop over all time
pairs; with several sampling steps concatenate the ensemble buffers and
optionally suppress across steps at IoU threshold 0.5; with a single step
return the single-shot inference of the last head output. -/
noncomputable def ddim_sample (cfg : DDCfg) (orc : Oracles) (whwh : List Box)
    (initImg : List (List Box)) : Option DDIMResult :=
  match ddimLoop cfg orc whwh (timePairs cfg.num_timesteps cfg.sampling_timesteps)
      (initState initImg) with
  | none => none
  | some st =>
      if 1 < cfg.sampling_timesteps then
        if cfg.use_nms then
          let keep := batched_nms st.ensC.flatten st.ensS.flatten st.ensL.flatten (1/2)
          some (.ensembled (keep.map fun i => st.ensC.flatten.getD i fun _ => 0)
            (keep.map fun i => st.ensS.flatten.getD i 0)
            (keep.map fun i => st.ensL.flatten.getD i 0))
        else some (.ensembled st.ensC.flatten st.ensS.flatten st.ensL.flatten)
      else
        match st.lastOut with
        | some out => some (inference cfg out.cls out.coord)
        | none => none

/- ---------------------------------------------------------------------
Arithmetic of the sampling time schedule.
--------------------------------------------------------------------- -/

theorem ratTrunc_intCast (n : ℤ) : ratTrunc (n : ℚ) = n := by
  unfold ratTrunc
  split
  · exact Int.floor_intCast n
  · exact Int.ceil_intCast n

theorem sampleTime_zero (T S : ℕ) : sampleTime T S 0 = -1 := by
  unfold sampleTime
  rw [show (-1 + ((0:ℕ) : ℚ) * (T : ℚ) / (S : ℚ)) = ((-1 : ℤ) : ℚ) by push_cast; ring,
    ratTrunc_intCast]

theorem sampleTime_nonneg (T S i : ℕ) (hS : 1 ≤ S) (hST : S ≤ T) (hi : 1 ≤ i) :
    0 ≤ sampleTime T S i := by
  unfold sampleTime ratTrunc
  have hS0 : (0:ℚ) < (S : ℚ) := by exact_mod_cast Nat.lt_of_lt_of_le Nat.zero_lt_one hS
  have h1 : (S : ℚ) ≤ (i : ℚ) * (T : ℚ) := by
    have hTi : (S : ℚ) ≤ (T : ℚ) := by exact_mod_cast hST
    have hi1 : (1 : ℚ) ≤ (i : ℚ) := by exact_mod_cast hi
    have hT0 : (0:ℚ) ≤ (T : ℚ) := by positivity
    nlinarith
  have h2 : (1:ℚ) ≤ (i : ℚ) * (T : ℚ) / (S : ℚ) := (le_div_iff₀ hS0).mpr (by linarith)
  have hq : (0:ℚ) ≤ -1 + (i : ℚ) * (T : ℚ) / (S : ℚ) := by linarith
  rw [if_pos hq]
  exact Int.floor_nonneg.mpr hq

theorem sampleTime_self (T S : ℕ) (hS : 1 ≤ S) :
    sampleTime T S S = (T : ℤ) - 1 := by
  unfold sampleTime
  have hS0 : (S : ℚ) ≠ 0 := Nat.cast_ne_zero.mpr (by omega)
  rw [show (-1 + (S : ℚ) * (T : ℚ) / (S : ℚ)) = (((T : ℤ) - 1 : ℤ) : ℚ) by
    field_simp; ring, ratTrunc_intCast]

theorem timesList_eq (T S : ℕ) :
    timesList T S = (List.range (S + 1)).reverse.map (sampleTime T S) := by
  unfold timesList
  rw [List.map_reverse]

theorem range_reverse_succ (n : ℕ) :
    (List.range (n + 1)).reverse = n :: (List.range n).reverse := by
  rw [List.range_succ, List.reverse_append]
  rfl

theorem zip_rev_map_drop {α : Type} (f : ℕ → α) :
    ∀ n : ℕ, (((List.range (n + 1)).reverse.map f).zip
        (((List.range (n + 1)).reverse.map f).drop 1))
      = (List.range n).reverse.map fun j => (f (j + 1), f j) := by
  intro n
  induction n with
  | zero => rfl
  | succ n ih =>
    rw [range_reverse_succ n] at ih
    rw [range_reverse_succ (n + 1), range_reverse_succ n]
    simp only [List.map_cons, List.drop_succ_cons, List.drop_zero] at ih ⊢
    rw [List.zip_cons_cons, ih]

theorem timePairs_eq (T S : ℕ) :
    timePairs T S
      = (List.range S).reverse.map fun j => (sampleTime T S (j + 1), sampleTime T S j) := by
  unfold timePairs
  rw [timesList_eq]
  exact zip_rev_map_drop (sampleTime T S) S

theorem timePairs_split (T S : ℕ) (hS : 1 ≤ S) :
    timePairs T S
      = (((List.range (S - 1)).map Nat.succ).reverse.map fun j =>
          (sampleTime T S (j + 1), sampleTime T S j))
        ++ [(sampleTime T S 1, sampleTime T S 0)] := by
  rw [timePairs_eq]
  obtain ⟨S', rfl⟩ : ∃ S', S = S' + 1 := ⟨S - 1, by omega⟩
  rw [List.range_succ_eq_map, List.reverse_cons, List.map_append]
  simp

theorem timePairs_length (T S : ℕ) : (timePairs T S).length = S := by
  rw [timePairs_eq]
  simp

/- ---------------------------------------------------------------------
Structural lemmas about the sampling loop.
--------------------------------------------------------------------- -/

/-- Shape contract of the stacked head, as the source head satisfies it:
one class row and one coordinate row per input image, each with
num_proposals proposals, each proposal carrying num_classes logits. -/
def HeadOK (cfg : DDCfg) (head : List (List Box) → ℤ → HeadOut) : Prop :=
  ∀ x t, (head x t).cls.length = x.length
    ∧ (head x t).coord.length = x.length
    ∧ (∀ r ∈ (head x t).cls, r.length = cfg.num_proposals
        ∧ ∀ q ∈ r, q.length = cfg.num_classes)
    ∧ ∀ r ∈ (head x t).coord, r.length = cfg.num_proposals

theorem ddimLoop_append (cfg : DDCfg) (orc : Oracles) (whwh : List Box)
    (l1 l2 : List (ℤ × ℤ)) (st : LoopState) :
    ddimLoop cfg orc whwh (l1 ++ l2) st
      = match ddimLoop cfg orc whwh l1 st with
        | none => none
        | some st2 => ddimLoop cfg orc whwh l2 st2 := by
  induction l1 generalizing st with
  | nil => rfl
  | cons tp l1 ih =>
    simp only [List.cons_append, ddimLoop]
    cases ddimStep cfg orc whwh st tp with
    | none => rfl
    | some st2 => exact ih st2

theorem ddimStep_terminal (cfg : DDCfg) (orc : Oracles) (whwh : List Box)
    (st : LoopState) (t tn : ℤ) (h : tn < 0) :
    ddimStep cfg orc whwh st (t, tn) = some
      { img := (outputXStart cfg whwh (orc.head (inputBoxes cfg whwh st.img) t).coord).map
          fun l => maskSelect l (keepMask (orc.head (inputBoxes cfg whwh st.img) t).cls),
        ensS := st.ensS, ensL := st.ensL, ensC := st.ensC,
        lastOut := some (orc.head (inputBoxes cfg whwh st.img) t), k := st.k + 1 } := by
  unfold ddimStep
  dsimp only
  rw [if_pos h]

theorem insertIdxDesc_length (score : ℕ → ℝ) (i : ℕ) :
    ∀ l : List ℕ, (insertIdxDesc score i l).length = l.length + 1 := by
  intro l
  induction l with
  | nil => rfl
  | cons j rest ih =>
    unfold insertIdxDesc
    split
    · rfl
    · simpa using ih

theorem sortIdxDesc_length (score : ℕ → ℝ) :
    ∀ l : List ℕ, (sortIdxDesc score l).length = l.length := by
  intro l
  induction l with
  | nil => rfl
  | cons i rest ih =>
    unfold sortIdxDesc
    rw [insertIdxDesc_length, ih]
    rfl

theorem topkIdx_length (l : List ℝ) (k : ℕ) : (topkIdx l k).length = min k l.length := by
  unfold topkIdx
  rw [List.length_take, sortIdxDesc_length, List.length_range]

theorem sum_map_const_of_mem {α : Type} (l : List α) (f : α → ℕ) (c : ℕ)
    (h : ∀ x ∈ l, f x = c) : (l.map f).sum = l.length * c := by
  induction l with
  | nil => simp
  | cons x xs ih =>
    simp only [List.map_cons, List.sum_cons, List.length_cons]
    rw [h x (by simp), ih fun y hy => h y (by simp [hy])]
    ring

theorem inferenceTopk_lengths (cfg : DDCfg) (cls0 : List (List ℝ)) (coord0 : List Box)
    (hr : cls0.length = cfg.num_proposals)
    (hq : ∀ q ∈ cls0, q.length = cfg.num_classes)
    (hC : 1 ≤ cfg.num_classes) :
    (inferenceTopk cfg cls0 coord0).1.length = cfg.num_proposals
      ∧ (inferenceTopk cfg cls0 coord0).2.1.length = cfg.num_proposals
      ∧ (inferenceTopk cfg cls0 coord0).2.2.length = cfg.num_proposals := by
  unfold inferenceTopk
  have hflat : ((cls0.map (List.map sigmoid)).flatten).length
      = cfg.num_proposals * cfg.num_classes := by
    rw [List.length_flatten, List.map_map,
      sum_map_const_of_mem _ _ cfg.num_classes fun x hx => by
        simp only [Function.comp_apply, List.length_map]
        exact hq x hx,
      hr]
  have hidx : (topkIdx ((cls0.map (List.map sigmoid)).flatten) cfg.num_proposals).length
      = cfg.num_proposals := by
    rw [topkIdx_length, hflat]
    have h1 : cfg.num_proposals ≤ cfg.num_proposals * cfg.num_classes :=
      Nat.le_mul_of_pos_right _ (by omega)
    omega
  refine ⟨?_, ?_, ?_⟩ <;> simp [hidx]

theorem inferenceSoft_lengths (cls0 : List (List ℝ)) (coord0 : List Box) (n : ℕ)
    (hr : cls0.length = n) (hc : coord0.length = n) :
    (inferenceSoft cls0 coord0).1.length = n
      ∧ (inferenceSoft cls0 coord0).2.1.length = n
      ∧ (inferenceSoft cls0 coord0).2.2.length = n := by
  unfold inferenceSoft
  simp [hr, hc]

theorem inferenceEarly_lengths (cfg : DDCfg) (cls : List (List (List ℝ)))
    (coord : List (List Box)) (r : List (List ℝ)) (cr : List Box)
    (hcls : cls.headI = r) (hcoord : coord.headI = cr)
    (hr : r.length = cfg.num_proposals) (hq : ∀ q ∈ r, q.length = cfg.num_classes)
    (hcr : cr.length = cfg.num_proposals) (hC : 1 ≤ cfg.num_classes) :
    (inferenceEarly cfg cls coord).1.length = cfg.num_proposals
      ∧ (inferenceEarly cfg cls coord).2.1.length = cfg.num_proposals
      ∧ (inferenceEarly cfg cls coord).2.2.length = cfg.num_proposals := by
  unfold inferenceEarly
  rw [hcls, hcoord]
  split
  · exact inferenceTopk_lengths cfg r cr hr hq hC
  · exact inferenceSoft_lengths r cr cfg.num_proposals hr hcr

theorem ddimStep_nonterminal (cfg : DDCfg) (orc : Oracles) (whwh : List Box)
    (st : LoopState) (t tn : ℤ) (xs : List Box)
    (hhead : HeadOK cfg orc.head) (hw : whwh.length = 1)
    (himg : st.img = [xs]) (hxs : xs.length = cfg.num_proposals)
    (hC : 1 ≤ cfg.num_classes) (htn : 0 ≤ tn) :
    ∃ st2, ddimStep cfg orc whwh st (t, tn) = some st2
      ∧ (∃ ys, st2.img = [ys] ∧ ys.length = cfg.num_proposals)
      ∧ (if 1 < cfg.sampling_timesteps then
            ∃ s1 l1 c1, st2.ensS = st.ensS ++ [s1] ∧ st2.ensL = st.ensL ++ [l1]
              ∧ st2.ensC = st.ensC ++ [c1] ∧ s1.length = cfg.num_proposals
              ∧ l1.length = cfg.num_proposals ∧ c1.length = cfg.num_proposals
          else st2.ensS = st.ensS ∧ st2.ensL = st.ensL ∧ st2.ensC = st.ensC)
      ∧ st2.lastOut = some (orc.head (inputBoxes cfg whwh st.img) t)
      ∧ st2.k = st.k + 1 := by
  obtain ⟨w, hwE⟩ := List.length_eq_one.mp hw
  unfold ddimStep
  dsimp only
  rw [if_neg (not_lt.mpr htn), himg, hwE]
  obtain ⟨h1, h2, h3, h4⟩ := hhead (inputBoxes cfg [w] [xs]) t
  have hinpLen : (inputBoxes cfg [w] [xs]).length = 1 := by
    simp [inputBoxes]
  obtain ⟨r, hr⟩ := List.length_eq_one.mp (h1.trans hinpLen)
  obtain ⟨cr, hcr⟩ := List.length_eq_one.mp (h2.trans hinpLen)
  have hrlen : r.length = cfg.num_proposals := (h3 r (by rw [hr]; simp)).1
  have hrq : ∀ q ∈ r, q.length = cfg.num_classes := (h3 r (by rw [hr]; simp)).2
  have hcrlen : cr.length = cfg.num_proposals :=
    h4 cr (by rw [hcr]; simp)
  have hkeepLen : (keepMask (orc.head (inputBoxes cfg [w] [xs]) t).cls).length
      = cfg.num_proposals := by
    rw [keepMask, hr]
    simpa using hrlen
  set keep := keepMask (orc.head (inputBoxes cfg [w] [xs]) t).cls with hkeepDef
  have hm : keep.count true ≤ cfg.num_proposals :=
    le_trans (List.count_le_length true keep) (le_of_eq hkeepLen)
  have hmsel : (maskSelect xs keep).length = keep.count true :=
    maskSelect_length xs keep (hxs.trans hkeepLen.symm)
  have hcondLen :
      ((List.range (([xs].map fun l => maskSelect l keep).length)).map fun b =>
        (List.range ((([xs].map fun l => maskSelect l keep).getD b []).length)).map fun j =>
          fun comp =>
            ((((outputXStart cfg [w] (orc.head (inputBoxes cfg [w] [xs]) t).coord).map
                fun l => maskSelect l keep).getD b []).getD j fun _ => 0) comp
              * Real.sqrt (cfg.ac tn)
            + Real.sqrt (1 - cfg.ac tn
                - Real.sqrt ((1 - cfg.ac t / cfg.ac tn) * (1 - cfg.ac tn) / (1 - cfg.ac t)) ^ 2)
              * ((((predNoiseBatch cfg t [xs]
                    (outputXStart cfg [w] (orc.head (inputBoxes cfg [w] [xs]) t).coord)).map
                  fun l => maskSelect l keep).getD b []).getD j fun _ => 0) comp
            + Real.sqrt ((1 - cfg.ac t / cfg.ac tn) * (1 - cfg.ac tn) / (1 - cfg.ac t))
              * orc.stepNoise st.k b j comp).length = 1 := by
    simp
  rw [if_pos hcondLen]
  by_cases hS : 1 < cfg.sampling_timesteps
  · rw [if_pos hS]
    refine ⟨_, rfl, ⟨_, rfl, ?_⟩, ?_, rfl, rfl⟩
    · simp [show List.range 1 = [0] from rfl, hmsel]
      omega
    · rw [if_pos hS]
      obtain ⟨e1, e2, e3⟩ := inferenceEarly_lengths cfg
        (orc.head (inputBoxes cfg [w] [xs]) t).cls
        (orc.head (inputBoxes cfg [w] [xs]) t).coord r cr
        (by rw [hr]; rfl) (by rw [hcr]; rfl) hrlen hrq hcrlen hC
      exact ⟨_, _, _, rfl, rfl, rfl, e2, e3, e1⟩
  · rw [if_neg hS]
    refine ⟨_, rfl, ⟨_, rfl, ?_⟩, ?_, rfl, rfl⟩
    · simp [show List.range 1 = [0] from rfl, hmsel]
      omega
    · rw [if_neg hS]
      exact ⟨rfl, rfl, rfl⟩

theorem ddimLoop_nonterminal (cfg : DDCfg) (orc : Oracles) (whwh : List Box)
    (hhead : HeadOK cfg orc.head) (hw : whwh.length = 1) (hC : 1 ≤ cfg.num_classes) :
    ∀ ps : List (ℤ × ℤ), (∀ p ∈ ps, 0 ≤ p.2) →
      ∀ (st : LoopState) (xs : List Box), st.img = [xs] → xs.length = cfg.num_proposals →
        ∃ st2 ys, ddimLoop cfg orc whwh ps st = some st2
          ∧ st2.img = [ys] ∧ ys.length = cfg.num_proposals
          ∧ st2.ensS.length
              = st.ensS.length + (if 1 < cfg.sampling_timesteps then ps.length else 0)
          ∧ st2.ensL.length
              = st.ensL.length + (if 1 < cfg.sampling_timesteps then ps.length else 0)
          ∧ st2.ensC.length
              = st.ensC.length + (if 1 < cfg.sampling_timesteps then ps.length else 0)
          ∧ st2.ensS.flatten.length = st.ensS.flatten.length
              + (if 1 < cfg.sampling_timesteps then ps.length * cfg.num_proposals else 0)
          ∧ st2.ensL.flatten.length = st.ensL.flatten.length
              + (if 1 < cfg.sampling_timesteps then ps.length * cfg.num_proposals else 0)
          ∧ st2.ensC.flatten.length = st.ensC.flatten.length
              + (if 1 < cfg.sampling_timesteps then ps.length * cfg.num_proposals else 0) := by
  intro ps
  induction ps with
  | nil =>
    intro _ st xs himg hxs
    exact ⟨st, xs, rfl, himg, hxs, by simp, by simp, by simp, by simp, by simp, by simp⟩
  | cons p ps ih =>
    intro hps st xs himg hxs
    obtain ⟨t, tn⟩ := p
    obtain ⟨st1, hstep, ⟨ys, hys, hyslen⟩, hens, hlast, hk⟩ :=
      ddimStep_nonterminal cfg orc whwh st t tn xs hhead hw himg hxs hC
        (hps (t, tn) (by simp))
    obtain ⟨st2, ys2, hloop, himg2, hys2, e1, e2, e3, f1, f2, f3⟩ :=
      ih (fun q hq => hps q (by simp [hq])) st1 ys hys hyslen
    have hrun : ddimLoop cfg orc whwh ((t, tn) :: ps) st = some st2 := by
      simp only [ddimLoop]
      rw [hstep]
      exact hloop
    by_cases hS : 1 < cfg.sampling_timesteps
    · rw [if_pos hS] at hens
      obtain ⟨s1, l1, c1, hs1, hl1, hc1, hls1, hll1, hlc1⟩ := hens
      refine ⟨st2, ys2, hrun, himg2, hys2, ?_, ?_, ?_, ?_, ?_, ?_⟩
      · rw [if_pos hS] at e1 ⊢
        rw [e1, hs1]
        simp only [List.length_append, List.length_cons, List.length_nil]
        omega
      · rw [if_pos hS] at e2 ⊢
        rw [e2, hl1]
        simp only [List.length_append, List.length_cons, List.length_nil]
        omega
      · rw [if_pos hS] at e3 ⊢
        rw [e3, hc1]
        simp only [List.length_append, List.length_cons, List.length_nil]
        omega
      · rw [if_pos hS] at f1 ⊢
        rw [f1, hs1]
        simp only [List.flatten_append, List.length_append, List.flatten_cons,
          List.flatten_nil, List.append_nil, List.length_cons, hls1]
        ring
      · rw [if_pos hS] at f2 ⊢
        rw [f2, hl1]
        simp only [List.flatten_append, List.length_append, List.flatten_cons,
          List.flatten_nil, List.append_nil, List.length_cons, hll1]
        ring
      · rw [if_pos hS] at f3 ⊢
        rw [f3, hc1]
        simp only [List.flatten_append, List.length_append, List.flatten_cons,
          List.flatten_nil, List.append_nil, List.length_cons, hlc1]
        ring
    · rw [if_neg hS] at hens
      obtain ⟨hs1, hl1, hc1⟩ := hens
      refine ⟨st2, ys2, hrun, himg2, hys2, ?_, ?_, ?_, ?_, ?_, ?_⟩
      · rw [if_neg hS] at e1 ⊢
        rw [e1, hs1]
      · rw [if_neg hS] at e2 ⊢
        rw [e2, hl1]
      · rw [if_neg hS] at e3 ⊢
        rw [e3, hc1]
      · rw [if_neg hS] at f1 ⊢
        rw [f1, hs1]
      · rw [if_neg hS] at f2 ⊢
        rw [f2, hl1]
      · rw [if_neg hS] at f3 ⊢
        rw [f3, hc1]

theorem timePairs_take_nonneg (T S k : ℕ) (hS1 : 1 ≤ S) (hST : S ≤ T) (hk : k < S) :
    ∀ p ∈ (timePairs T S).take k, 0 ≤ p.2 := by
  intro p hp
  rw [timePairs_eq, ← List.map_take] at hp
  obtain ⟨j, hj, rfl⟩ := List.mem_map.mp hp
  apply sampleTime_nonneg T S j hS1 hST
  obtain ⟨i, hi, hval⟩ := List.mem_iff_getElem.mp hj
  rw [List.getElem_take, List.getElem_reverse, List.getElem_range] at hval
  simp only [List.length_take, List.length_reverse, List.length_range] at hi hval
  omega

/-- C2: the renewal invariant of the reverse sampler.  For every number of
completed steps k below the configured step count S, the loop state after
k steps (the noisy box state handed to the stacked head at step k) is
defined and holds exactly num_proposals proposals for the (single) image -
with no assumption on the class scores, so this covers the case where the
confidence filter drops every proposal and the state is rebuilt entirely
from fresh Gaussian renewal noise. -/
theorem ddim_state_renewal (cfg : DDCfg) (orc : Oracles) (whwh : List Box) (xs0 : List Box)
    (hhead : HeadOK cfg orc.head) (hw : whwh.length = 1)
    (hx : xs0.length = cfg.num_proposals) (hC : 1 ≤ cfg.num_classes)
    (hS1 : 1 ≤ cfg.sampling_timesteps) (hST : cfg.sampling_timesteps ≤ cfg.num_timesteps) :
    ∀ k < cfg.sampling_timesteps,
      ∃ st xs, ddimLoop cfg orc whwh
          ((timePairs cfg.num_timesteps cfg.sampling_timesteps).take k)
          (initState [xs0]) = some st
        ∧ st.img = [xs] ∧ xs.length = cfg.num_proposals := by
  intro k hk
  obtain ⟨st2, ys, hrun, himg, hlen, _⟩ :=
    ddimLoop_nonterminal cfg orc whwh hhead hw hC _
      (timePairs_take_nonneg cfg.num_timesteps cfg.sampling_timesteps k hS1 hST hk)
      (initState [xs0]) xs0 rfl hx
  exact ⟨st2, ys, hrun, himg, hlen⟩

/-- A concrete single-image configuration used by the concrete runs:
one proposal, one class, two timesteps, two sampling steps, focal scoring,
no suppression. -/
noncomputable def cfgEx : DDCfg :=
  { num_proposals := 1, num_timesteps := 2, sampling_timesteps := 2, scale := 2,
    num_classes := 1, use_focal := true, use_fed_loss := false, use_nms := false,
    ac := fun _ => 1/2 }

/-- A shape-respecting constant head: every proposal scores logit 0 for
its single class and predicts the unit box. -/
noncomputable def headConst : List (List Box) → ℤ → HeadOut :=
  fun x _ => { cls := x.map fun _ => [[0]], coord := x.map fun _ => [fun _ => 1] }

/-- Zero-noise oracles around the constant head. -/
noncomputable def orcEx : Oracles :=
  { head := headConst, stepNoise := fun _ _ _ => fun _ => 0,
    renewNoise := fun _ _ => fun _ => 0 }

theorem headConst_ok : HeadOK cfgEx headConst := by
  intro x t
  refine ⟨by simp [headConst], by simp [headConst], ?_, ?_⟩
  · intro r hr
    simp only [headConst, List.mem_map] at hr
    obtain ⟨_, _, rfl⟩ := hr
    constructor
    · rfl
    · intro q hq
      simp at hq
      rw [hq]
      rfl
  · intro r hr
    simp only [headConst, List.mem_map] at hr
    obtain ⟨_, _, rfl⟩ := hr
    rfl

/-- Witness for C2 on the concrete configuration, after one completed
step. -/
theorem ddim_state_renewal_witness :
    ∃ st xs, ddimLoop cfgEx orcEx [fun _ => 1]
        ((timePairs cfgEx.num_timesteps cfgEx.sampling_timesteps).take 1)
        (initState [[fun _ => 0]]) = some st
      ∧ st.img = [xs] ∧ xs.length = cfgEx.num_proposals :=
  ddim_state_renewal cfgEx orcEx [fun _ => 1] [fun _ => 0] headConst_ok rfl rfl
    (by norm_num [cfgEx]) (by norm_num [cfgEx]) (by norm_num [cfgEx]) 1 (by norm_num [cfgEx])

theorem timePairs_one (T : ℕ) : timePairs T 1 = [((T : ℤ) - 1, -1)] := by
  rw [timePairs_eq]
  have h1 : sampleTime T 1 1 = (T : ℤ) - 1 := sampleTime_self T 1 le_rfl
  have h0 : sampleTime T 1 0 = -1 := sampleTime_zero T 1
  simp [show List.range 1 = [0] from rfl, h1, h0]

/-- C7: with a single configured sampling step the reverse sampler returns
exactly the single-shot inference of the final-stage outputs of the one
head call (made at timestep num_timesteps - 1); no ensemble buffer is
consulted and no cross-step suppression happens. -/
theorem ddim_sample_single_step (cfg : DDCfg) (orc : Oracles) (whwh : List Box)
    (initImg : List (List Box)) (hS : cfg.sampling_timesteps = 1) :
    ddim_sample cfg orc whwh initImg
      = some (inference cfg
          (orc.head (inputBoxes cfg whwh initImg) ((cfg.num_timesteps : ℤ) - 1)).cls
          (orc.head (inputBoxes cfg whwh initImg) ((cfg.num_timesteps : ℤ) - 1)).coord) := by
  unfold ddim_sample
  rw [hS, timePairs_one cfg.num_timesteps]
  simp only [ddimLoop]
  rw [ddimStep_terminal cfg orc whwh (initState initImg) ((cfg.num_timesteps : ℤ) - 1) (-1)
    (by norm_num)]
  simp only [ddimLoop]
  rw [if_neg (by simp [hS])]
  rfl

/-- Witness for C7 at the concrete single-step configuration. -/
theorem ddim_sample_single_step_witness :
    ddim_sample
        { num_proposals := 1, num_timesteps := 2, sampling_timesteps := 1, scale := 2,
          num_classes := 1, use_focal := true, use_fed_loss := false, use_nms := false,
          ac := fun _ => 1/2 } orcEx [fun _ => 1] [[fun _ => 0]]
      = some (inference
          { num_proposals := 1, num_timesteps := 2, sampling_timesteps := 1, scale := 2,
            num_classes := 1, use_focal := true, use_fed_loss := false, use_nms := false,
            ac := fun _ => 1/2 }
          (orcEx.head (inputBoxes
            { num_proposals := 1, num_timesteps := 2, sampling_timesteps := 1, scale := 2,
              num_classes := 1, use_focal := true, use_fed_loss := false, use_nms := false,
              ac := fun _ => 1/2 } [fun _ => 1] [[fun _ => 0]]) ((2 : ℤ) - 1)).cls
          (orcEx.head (inputBoxes
            { num_proposals := 1, num_timesteps := 2, sampling_timesteps := 1, scale := 2,
              num_classes := 1, use_focal := true, use_fed_loss := false, use_nms := false,
              ac := fun _ => 1/2 } [fun _ => 1] [[fun _ => 0]]) ((2 : ℤ) - 1)).coord) :=
  ddim_sample_single_step _ orcEx [fun _ => 1] [[fun _ => 0]] rfl

/-- C10: batch behaviour of one reverse-sampling step.  The confidence
keep mask is a function of the first image's class scores alone (keepMask
reads only the head of the class-logit batch, and the step filters every
image with that one mask); with exactly one image the step succeeds and
restores exactly num_proposals proposals; with two or more images the
renewal concatenation, whose noise tensor has batch dimension fixed at 1,
is ill-shaped and the step fails. -/
theorem ddim_step_batch_behaviour (cfg : DDCfg) (orc : Oracles) (whwh : List Box)
    (st : LoopState) (t tn : ℤ) (htn : 0 ≤ tn) :
    (∀ cls cls2 : List (List (List ℝ)), cls.headI = cls2.headI → keepMask cls = keepMask cls2)
      ∧ (∀ xs : List Box, HeadOK cfg orc.head → whwh.length = 1 → st.img = [xs]
          → xs.length = cfg.num_proposals → 1 ≤ cfg.num_classes →
          ∃ st2 ys, ddimStep cfg orc whwh st (t, tn) = some st2 ∧ st2.img = [ys]
            ∧ ys.length = cfg.num_proposals)
      ∧ (2 ≤ st.img.length → ddimStep cfg orc whwh st (t, tn) = none) := by
  refine ⟨?_, ?_, ?_⟩
  · intro cls cls2 h
    unfold keepMask
    rw [h]
  · intro xs hhead hw himg hxs hC
    obtain ⟨st2, hstep, ⟨ys, hys, hyslen⟩, -, -, -⟩ :=
      ddimStep_nonterminal cfg orc whwh st t tn xs hhead hw himg hxs hC htn
    exact ⟨st2, ys, hstep, hys, hyslen⟩
  · intro hbs
    unfold ddimStep
    dsimp only
    rw [if_neg (not_lt.mpr htn), if_neg]
    simp only [List.length_map, List.length_range]
    omega

/-- Witness for C10 at a concrete configuration and time pair. -/
theorem ddim_step_batch_behaviour_witness :
    (∀ cls cls2 : List (List (List ℝ)), cls.headI = cls2.headI → keepMask cls = keepMask cls2)
      ∧ (∀ xs : List Box, HeadOK cfgEx orcEx.head → [(fun _ => 1 : Box)].length = 1
          → (initState [[fun _ => 0]]).img = [xs] → xs.length = cfgEx.num_proposals
          → 1 ≤ cfgEx.num_classes →
          ∃ st2 ys, ddimStep cfgEx orcEx [fun _ => 1] (initState [[fun _ => 0]]) (1, 0) = some st2
            ∧ st2.img = [ys] ∧ ys.length = cfgEx.num_proposals)
      ∧ (2 ≤ (initState [[fun _ => 0]]).img.length →
          ddimStep cfgEx orcEx [fun _ => 1] (initState [[fun _ => 0]]) (1, 0) = none) :=
  ddim_step_batch_behaviour cfgEx orcEx [fun _ => 1] (initState [[fun _ => 0]]) 1 0
    (by norm_num)

/-- Counterexample to C1 as stated: in a two-step run (S = 2) of the
concrete single-image configuration, the ensemble buffer holds the
predictions of only one step after the loop - the terminal step
(time_next < 0) leaves the loop before the ensemble block, so not every
sampling step's predictions are accumulated. -/
theorem ddim_ensemble_skips_terminal_step :
    (ddimLoop cfgEx orcEx [fun _ => 1] (timePairs 2 2)
        (initState [[fun _ => 0]])).map (fun st => st.ensC.length) = some 1
      ∧ (1 : ℕ) ≠ cfgEx.sampling_timesteps := by
  refine ⟨?_, by norm_num [cfgEx]⟩
  have hv1 : sampleTime 2 2 1 = 0 := by
    unfold sampleTime
    rw [show (-1 + ((1 : ℕ) : ℚ) * ((2 : ℕ) : ℚ) / ((2 : ℕ) : ℚ)) = ((0 : ℤ) : ℚ) by norm_num,
      ratTrunc_intCast]
  have hv2 : sampleTime 2 2 2 = 1 := by
    rw [sampleTime_self 2 2 (by norm_num)]
    norm_num
  have hpairs : timePairs 2 2 = [(1, 0), (0, -1)] := by
    rw [timePairs_eq]
    simp [show (List.range 2).reverse = [1, 0] from rfl, hv1, hv2, sampleTime_zero]
  rw [hpairs]
  obtain ⟨st1, hstep1, ⟨ys, hys, hyslen⟩, hens1, -, -⟩ :=
    ddimStep_nonterminal cfgEx orcEx [fun _ => 1] (initState [[fun _ => 0]]) 1 0 [fun _ => 0]
      headConst_ok rfl rfl rfl (by norm_num [cfgEx]) le_rfl
  rw [if_pos (by norm_num [cfgEx])] at hens1
  obtain ⟨s1, l1, c1, hs1, hl1, hc1, -, -, -⟩ := hens1
  have hstep2 := ddimStep_terminal cfgEx orcEx [fun _ => 1] st1 0 (-1) (by norm_num)
  simp only [ddimLoop]
  rw [hstep1]
  simp only [ddimLoop]
  rw [hstep2]
  simp only [ddimLoop, Option.map_some]
  simp [hc1, initState]

/- ---------------------------------------------------------------------
Properties of the greedy class-aware suppression.
--------------------------------------------------------------------- -/

theorem iou_comm (a b : Box) : iou a b = iou b a := by
  unfold iou boxArea
  rw [min_comm (a 2) (b 2), max_comm (a 0) (b 0), min_comm (a 3) (b 3), max_comm (a 1) (b 1)]
  ring

theorem insertIdxDesc_perm (score : ℕ → ℝ) (i : ℕ) :
    ∀ l : List ℕ, (insertIdxDesc score i l).Perm (i :: l) := by
  intro l
  induction l with
  | nil => exact List.Perm.refl _
  | cons j rest ih =>
    unfold insertIdxDesc
    split
    · exact List.Perm.refl _
    · exact (ih.cons j).trans (List.Perm.swap i j rest)

theorem sortIdxDesc_perm (score : ℕ → ℝ) :
    ∀ l : List ℕ, (sortIdxDesc score l).Perm l := by
  intro l
  induction l with
  | nil => exact List.Perm.refl _
  | cons i rest ih =>
    unfold sortIdxDesc
    exact (insertIdxDesc_perm score i _).trans (ih.cons i)

theorem nmsGreedy_mem (boxes : ℕ → Box) (labels : ℕ → ℕ) (thr : ℝ) :
    ∀ (order acc : List ℕ) (i : ℕ), i ∈ nmsGreedy boxes labels thr order acc →
      i ∈ order ∨ i ∈ acc := by
  intro order
  induction order with
  | nil =>
    intro acc i hi
    unfold nmsGreedy at hi
    exact Or.inr (List.mem_reverse.mp hi)
  | cons j rest ih =>
    intro acc i hi
    unfold nmsGreedy at hi
    split at hi
    · rcases ih (j :: acc) i hi with h | h
      · exact Or.inl (List.mem_cons_of_mem j h)
      · rcases List.mem_cons.mp h with h | h
        · exact Or.inl (h ▸ List.mem_cons_self j rest)
        · exact Or.inr h
    · rcases ih acc i hi with h | h
      · exact Or.inl (List.mem_cons_of_mem j h)
      · exact Or.inr h

theorem nmsGreedy_nodup (boxes : ℕ → Box) (labels : ℕ → ℕ) (thr : ℝ) :
    ∀ (order acc : List ℕ), order.Nodup → acc.Nodup → (∀ a ∈ acc, a ∉ order) →
      (nmsGreedy boxes labels thr order acc).Nodup := by
  intro order
  induction order with
  | nil =>
    intro acc _ hacc _
    unfold nmsGreedy
    exact List.nodup_reverse.mpr hacc
  | cons j rest ih =>
    intro acc hord hacc hdisj
    obtain ⟨hjrest, hrest⟩ := List.nodup_cons.mp hord
    unfold nmsGreedy
    split
    · refine ih (j :: acc) hrest ?_ ?_
      · exact List.nodup_cons.mpr ⟨fun hj => hdisj j hj (List.mem_cons_self _ _), hacc⟩
      · intro a ha
        rcases List.mem_cons.mp ha with h | h
        · exact h ▸ hjrest
        · exact fun har => hdisj a h (List.mem_cons_of_mem j har)
    · refine ih acc hrest hacc ?_
      exact fun a ha har => hdisj a ha (List.mem_cons_of_mem j har)

theorem nmsGreedy_pairwise (boxes : ℕ → Box) (labels : ℕ → ℕ) (thr : ℝ) :
    ∀ (order acc : List ℕ),
      (∀ a ∈ acc, ∀ b ∈ acc, a ≠ b → labels a = labels b → iou (boxes a) (boxes b) ≤ thr) →
      ∀ a ∈ nmsGreedy boxes labels thr order acc, ∀ b ∈ nmsGreedy boxes labels thr order acc,
        a ≠ b → labels a = labels b → iou (boxes a) (boxes b) ≤ thr := by
  intro order
  induction order with
  | nil =>
    intro acc hacc a ha b hb
    unfold nmsGreedy at ha hb
    exact hacc a (List.mem_reverse.mp ha) b (List.mem_reverse.mp hb)
  | cons j rest ih =>
    intro acc hacc
    unfold nmsGreedy
    split
    case isTrue hcond =>
      refine ih (j :: acc) ?_
      intro a ha b hb hne hlab
      rcases List.mem_cons.mp ha with ha2 | ha2 <;> rcases List.mem_cons.mp hb with hb2 | hb2
      · exact absurd (ha2.trans hb2.symm) hne
      · subst ha2
        have hx := List.all_eq_true.mp hcond b hb2
        simp only [Bool.or_eq_true, decide_eq_true_eq] at hx
        rcases hx with h | h
        · exact absurd hlab.symm h
        · exact h
      · subst hb2
        have hx := List.all_eq_true.mp hcond a ha2
        simp only [Bool.or_eq_true, decide_eq_true_eq] at hx
        rcases hx with h | h
        · exact absurd hlab h
        · rw [iou_comm]
          exact h
      · exact hacc a ha2 b hb2 hne hlab
    case isFalse => exact ih acc hacc

theorem nmsGreedy_length (boxes : ℕ → Box) (labels : ℕ → ℕ) (thr : ℝ) :
    ∀ (order acc : List ℕ),
      (nmsGreedy boxes labels thr order acc).length ≤ order.length + acc.length := by
  intro order
  induction order with
  | nil =>
    intro acc
    unfold nmsGreedy
    simp
  | cons j rest ih =>
    intro acc
    unfold nmsGreedy
    split
    · have := ih (j :: acc)
      simp only [List.length_cons] at this ⊢
      omega
    · have := ih acc
      simp only [List.length_cons] at this ⊢
      omega

theorem batched_nms_length (boxes : List Box) (scores : List ℝ) (labels : List ℕ) (thr : ℝ) :
    (batched_nms boxes scores labels thr).length ≤ boxes.length := by
  unfold batched_nms
  have h := nmsGreedy_length (fun i => boxes.getD i fun _ => 0) (fun i => labels.getD i 0) thr
    (sortIdxDesc (fun i => scores.getD i 0) (List.range boxes.length)) []
  rw [(sortIdxDesc_perm _ _).length_eq, List.length_range] at h
  simpa using h

theorem batched_nms_nodup (boxes : List Box) (scores : List ℝ) (labels : List ℕ) (thr : ℝ) :
    (batched_nms boxes scores labels thr).Nodup := by
  unfold batched_nms
  refine nmsGreedy_nodup _ _ thr _ [] ?_ List.nodup_nil (by simp)
  exact (sortIdxDesc_perm _ _).nodup_iff.mpr (List.nodup_range _)

theorem batched_nms_pairwise (boxes : List Box) (scores : List ℝ) (labels : List ℕ) (thr : ℝ) :
    ∀ a ∈ batched_nms boxes scores labels thr, ∀ b ∈ batched_nms boxes scores labels thr,
      a ≠ b → labels.getD a 0 = labels.getD b 0 →
      iou (boxes.getD a fun _ => 0) (boxes.getD b fun _ => 0) ≤ thr := by
  unfold batched_nms
  exact nmsGreedy_pairwise _ _ thr _ [] (by simp)

theorem getD_map {α β : Type} (f : α → β) (l : List α) (n : ℕ) (d : β) (d0 : α)
    (h : n < l.length) : (l.map f).getD n d = f (l.getD n d0) := by
  rw [List.getD_eq_getElem (l.map f) d (by simpa using h), List.getD_eq_getElem l d0 h]
  simp

theorem getD_mem {α : Type} (l : List α) (n : ℕ) (d : α) (h : n < l.length) :
    l.getD n d ∈ l := by
  rw [List.getD_eq_getElem l d h]
  exact List.getElem_mem h

/-- C1 (amended): multi-step ensembling of the reverse sampler.  With S
configured sampling steps (S greater than 1) on a single image, every
step except the terminal one (whose time_next is negative and which
leaves the loop before the ensemble block) appends exactly one converted
triple of num_proposals scored, labeled boxes, so after the loop each
ensemble buffer holds S - 1 entries and the concatenated set holds
(S - 1) * num_proposals boxes - in particular at most
S * num_proposals.  Without suppression the concatenated triple is
returned as is; with suppression enabled the returned set is obtained by
class-aware greedy suppression at IoU threshold 0.5 and any two distinct
returned boxes with equal labels have IoU at most 0.5. -/
theorem ddim_sample_multistep_ensemble (cfg : DDCfg) (orc : Oracles) (whwh : List Box)
    (xs0 : List Box) (hhead : HeadOK cfg orc.head) (hw : whwh.length = 1)
    (hx : xs0.length = cfg.num_proposals) (hC : 1 ≤ cfg.num_classes)
    (hS : 1 < cfg.sampling_timesteps) (hST : cfg.sampling_timesteps ≤ cfg.num_timesteps) :
    ∃ st, ddimLoop cfg orc whwh (timePairs cfg.num_timesteps cfg.sampling_timesteps)
        (initState [xs0]) = some st
      ∧ st.ensC.length = cfg.sampling_timesteps - 1
      ∧ st.ensS.length = cfg.sampling_timesteps - 1
      ∧ st.ensL.length = cfg.sampling_timesteps - 1
      ∧ st.ensC.flatten.length = (cfg.sampling_timesteps - 1) * cfg.num_proposals
      ∧ st.ensC.flatten.length ≤ cfg.sampling_timesteps * cfg.num_proposals
      ∧ (cfg.use_nms = false →
          ddim_sample cfg orc whwh [xs0]
            = some (.ensembled st.ensC.flatten st.ensS.flatten st.ensL.flatten))
      ∧ (cfg.use_nms = true →
          ∃ B Sc L, ddim_sample cfg orc whwh [xs0] = some (.ensembled B Sc L)
            ∧ B.length ≤ cfg.sampling_timesteps * cfg.num_proposals
            ∧ ∀ p q : ℕ, p < B.length → q < B.length → p ≠ q →
                L.getD p 0 = L.getD q 0 →
                iou (B.getD p fun _ => 0) (B.getD q fun _ => 0) ≤ 1/2) := by
  have hsplit := timePairs_split cfg.num_timesteps cfg.sampling_timesteps (by omega)
  have hprefNonneg : ∀ p ∈ (((List.range (cfg.sampling_timesteps - 1)).map Nat.succ).reverse.map
      fun j => (sampleTime cfg.num_timesteps cfg.sampling_timesteps (j + 1),
        sampleTime cfg.num_timesteps cfg.sampling_timesteps j)), 0 ≤ p.2 := by
    intro p hp
    obtain ⟨j, hj, rfl⟩ := List.mem_map.mp hp
    rw [List.mem_reverse, List.mem_map] at hj
    obtain ⟨j2, _, rfl⟩ := hj
    exact sampleTime_nonneg cfg.num_timesteps cfg.sampling_timesteps (Nat.succ j2)
      (by omega) hST (by omega)
  have hprefLen : ((((List.range (cfg.sampling_timesteps - 1)).map Nat.succ).reverse.map
      fun j => (sampleTime cfg.num_timesteps cfg.sampling_timesteps (j + 1),
        sampleTime cfg.num_timesteps cfg.sampling_timesteps j))).length
      = cfg.sampling_timesteps - 1 := by
    simp
  obtain ⟨st1, ys, hloop1, himg1, hys1, e1, e2, e3, f1, f2, f3⟩ :=
    ddimLoop_nonterminal cfg orc whwh hhead hw hC _ hprefNonneg (initState [xs0]) xs0 rfl hx
  rw [if_pos hS] at e1 e2 e3 f1 f2 f3
  rw [hprefLen] at e1 e2 e3 f1 f2 f3
  simp only [initState, List.length_nil, List.flatten_nil, Nat.zero_add] at e1 e2 e3 f1 f2 f3
  have hv0 : sampleTime cfg.num_timesteps cfg.sampling_timesteps 0 = -1 :=
    sampleTime_zero cfg.num_timesteps cfg.sampling_timesteps
  have hterm := ddimStep_terminal cfg orc whwh st1
    (sampleTime cfg.num_timesteps cfg.sampling_timesteps 1)
    (sampleTime cfg.num_timesteps cfg.sampling_timesteps 0) (by rw [hv0]; norm_num)
  have hfull : ∃ stF, ddimLoop cfg orc whwh
        (timePairs cfg.num_timesteps cfg.sampling_timesteps) (initState [xs0]) = some stF
      ∧ stF.ensS = st1.ensS ∧ stF.ensL = st1.ensL ∧ stF.ensC = st1.ensC := by
    rw [hsplit, ddimLoop_append, hloop1]
    simp only [ddimLoop]
    rw [hterm]
    simp only [ddimLoop]
    exact ⟨_, rfl, rfl, rfl, rfl⟩
  obtain ⟨stF, hrunF, hFs, hFl, hFc⟩ := hfull
  have hClen : stF.ensC.flatten.length
      = (cfg.sampling_timesteps - 1) * cfg.num_proposals := by rw [hFc, f3]
  have hCle : stF.ensC.flatten.length ≤ cfg.sampling_timesteps * cfg.num_proposals := by
    rw [hClen]
    exact Nat.mul_le_mul_right _ (by omega)
  refine ⟨stF, hrunF, by rw [hFc, e3], by rw [hFs, e1], by rw [hFl, e2], hClen, hCle, ?_, ?_⟩
  · intro hnms
    unfold ddim_sample
    rw [hrunF]
    dsimp only
    rw [if_pos hS, hnms]
    rfl
  · intro hnms
    unfold ddim_sample
    rw [hrunF]
    dsimp only
    rw [if_pos hS, hnms]
    simp only [if_true]
    refine ⟨_, _, _, rfl, ?_, ?_⟩
    · rw [List.length_map]
      exact le_trans (batched_nms_length _ _ _ _) hCle
    · intro p q hp hq hne hlab
      rw [List.length_map] at hp hq
      have hBp := getD_map (fun i => stF.ensC.flatten.getD i fun _ => (0:ℝ))
        (batched_nms stF.ensC.flatten stF.ensS.flatten stF.ensL.flatten (1/2)) p
        (fun _ => 0) 0 hp
      have hBq := getD_map (fun i => stF.ensC.flatten.getD i fun _ => (0:ℝ))
        (batched_nms stF.ensC.flatten stF.ensS.flatten stF.ensL.flatten (1/2)) q
        (fun _ => 0) 0 hq
      have hLp := getD_map (fun i => stF.ensL.flatten.getD i 0)
        (batched_nms stF.ensC.flatten stF.ensS.flatten stF.ensL.flatten (1/2)) p 0 0 hp
      have hLq := getD_map (fun i => stF.ensL.flatten.getD i 0)
        (batched_nms stF.ensC.flatten stF.ensS.flatten stF.ensL.flatten (1/2)) q 0 0 hq
      rw [hBp, hBq]
      rw [hLp, hLq] at hlab
      have hne2 : (batched_nms stF.ensC.flatten stF.ensS.flatten stF.ensL.flatten (1/2)).getD p 0
          ≠ (batched_nms stF.ensC.flatten stF.ensS.flatten stF.ensL.flatten (1/2)).getD q 0 := by
        intro he
        rw [List.getD_eq_getElem _ 0 hp, List.getD_eq_getElem _ 0 hq] at he
        exact hne ((List.Nodup.getElem_inj_iff (batched_nms_nodup _ _ _ _)).mp he)
      exact batched_nms_pairwise stF.ensC.flatten stF.ensS.flatten stF.ensL.flatten (1/2)
        _ (getD_mem _ p 0 hp) _ (getD_mem _ q 0 hq) hne2 hlab

/-- Witness for the amended C1 on the concrete two-step configuration. -/
theorem ddim_sample_multistep_ensemble_witness :
    ∃ st, ddimLoop cfgEx orcEx [fun _ => 1]
        (timePairs cfgEx.num_timesteps cfgEx.sampling_timesteps)
        (initState [[fun _ => 0]]) = some st
      ∧ st.ensC.length = cfgEx.sampling_timesteps - 1
      ∧ st.ensC.flatten.length ≤ cfgEx.sampling_timesteps * cfgEx.num_proposals := by
  obtain ⟨st, h1, h2, -, -, -, h6, -, -⟩ :=
    ddim_sample_multistep_ensemble cfgEx orcEx [fun _ => 1] [fun _ => 0] headConst_ok rfl rfl
      (by norm_num [cfgEx]) (by norm_num [cfgEx]) (by norm_num [cfgEx])
  exact ⟨st, h1, h2, h6⟩
